import Mathlib

/-!
# Verification of the HybridStake consensus simulation

Shallow embedding of `src/hybrid_stake.rs` (a single-file hybrid
proof-of-stake simulation) and proofs about it.

Modelling conventions, all stated against the Rust source:

* `u64` counters (stake, delegated stake, period, block ids, rotation
  period) are modelled as `Nat`; the one place the source performs an
  unchecked subtraction that can underflow (`validator.stake -= 1` in
  `rotate_validators`) is modelled by `u64SubOne`, which wraps to
  `2 ^ 64 - 1` at zero as a release-mode Rust build does (a debug build
  panics there; either way the value does not saturate at 0).
* `f64` reputation is modelled as an `Int` in tenths: the stored value
  `r` stands for the real reputation `r/10`.  Every reputation value the
  source manipulates is built from the initial `1.0` by `± 0.1` steps, so
  this scaling is lossless; the selection weight is scaled by the same
  positive factor 10, which preserves the sign and zero tests
  `choose_weighted`'s error conditions depend on, as well as the relative
  sampling weights.  (`f64` rounding of repeated `± 0.1` steps perturbs
  values by at most a few ulps, which cannot cross the sign/threshold
  comparisons at the concrete inputs used here.)
* The md5 content hasher is an external collaborator (out of scope per the
  spec); it is modelled as the deterministic injection that returns its own
  preimage string — the source feeds
  `format!("{}{}{}{}{}", id, data, validator_id, timestamp, previous_hash)`
  to md5, and no claim depends on digest values, only on determinism and
  on equality of stored digest strings.
* `SystemTime::now()` is injected as a `timestamp : Nat` argument per
  round, and `thread_rng` as a `Nat` choice index per round.
* `HashMap<String, Validator>` / `HashMap<String, TokenHolder>` are
  modelled as association lists keyed by the `id` field; `insert` replaces
  any existing entry with the same key, so lists built through the public
  constructors have pairwise-distinct keys.  `HashSet<Block>`
  (`pending_blocks`) is modelled as a duplicate-free list.
* `choose_weighted` (rand 0.8) errors with `NoItem` on an empty slice,
  `InvalidWeight` if any weight is negative, and `AllWeightsZero` if the
  total weight is zero; otherwise it returns an element of positive weight
  (zero-weight elements have empty probability mass).  `selectOk` captures
  the error condition and the choice index picks among the positive-weight
  validators.
-/

namespace HybridStake

/-- Rust `u64` decrement by 1: wraps to `2 ^ 64 - 1` on underflow (release
build semantics; a debug build panics).  The source's
`validator.stake -= 1` is unchecked, not saturating. -/
def u64SubOne (s : Nat) : Nat :=
  if s = 0 then 2 ^ 64 - 1 else s - 1

/-- Model of `Block::calculate_hash`: the source md5-hashes the
concatenation `format!("{}{}{}{}{}", id, data, validator_id, timestamp,
previous_hash)`.  The digest algorithm is an out-of-scope external
collaborator; we model the digest as the concatenated preimage itself
(deterministic in the block fields, as required). -/
def calculate_hash (id : Nat) (data validator_id : String) (timestamp : Nat)
    (previous_hash : String) : String :=
  toString id ++ data ++ validator_id ++ toString timestamp ++ previous_hash

/-- The `Block` struct of the source.  `id`, `timestamp` are `u64`/`u128`
modelled as `Nat`; `hash`/`previous_hash` are digest strings. -/
structure Block where
  id : Nat
  timestamp : Nat
  data : String
  validator_id : String
  previous_hash : String
  hash : String
  deriving DecidableEq, Repr

/-- Model of `Block::new`: computes the digest from the fields; the wall-clock
timestamp is injected as an argument. -/
def Block.new (id : Nat) (data validator_id previous_hash : String)
    (timestamp : Nat) : Block :=
  { id := id
    timestamp := timestamp
    data := data
    validator_id := validator_id
    previous_hash := previous_hash
    hash := calculate_hash id data validator_id timestamp previous_hash }

/-- The `Validator` struct.  `reputation` is `f64` in the source, stored
here in tenths as an `Int` (all source updates are `± 0.1` steps from
`1.0`, i.e. `± 1` from `10` in tenths). -/
structure Validator where
  id : String
  stake : Nat
  delegated_stake : Nat
  rotation_period : Nat
  last_block_validated : Nat
  reputation : Int
  deriving DecidableEq, Repr

/-- The `TokenHolder` struct. -/
structure TokenHolder where
  id : String
  stake : Nat
  delegated_to : Option String
  deriving DecidableEq, Repr

/-- The `SecurityMeasures` struct (reserved, never written by any round). -/
structure SecurityMeasures where
  malicious_activity_log : List String
  validator_penalties : List (String × Nat)
  deriving DecidableEq, Repr

/-- The `Blockchain` struct.  The two `HashMap`s are association lists keyed by
the embedded `id` field; `pending_blocks` (`HashSet<Block>`) is a
duplicate-free list. -/
structure Blockchain where
  blocks : List Block
  pending_blocks : List Block
  validators : List Validator
  token_holders : List TokenHolder
  current_period : Nat
  finality_threshold : Nat
  security_measures : SecurityMeasures
  deriving DecidableEq, Repr

/-- Model of `Blockchain::new`. -/
def Blockchain.new (finality_threshold : Nat) : Blockchain :=
  { blocks := []
    pending_blocks := []
    validators := []
    token_holders := []
    current_period := 0
    finality_threshold := finality_threshold
    security_measures :=
      { malicious_activity_log := [], validator_penalties := [] } }

/-- The fixed payload string the round loop puts into every block. -/
def sampleData : String := "Sample Block Data"

/-- Model of `self.validators.get(&id)` on the keyed association list. -/
def findValidator (vs : List Validator) (id : String) : Option Validator :=
  vs.find? (fun v => v.id = id)

/-- Model of `self.validators.get_mut(&id)` followed by a field update: rewrites
every entry whose key matches (lists built by `insert` have at most one
such entry); an absent key leaves the list unchanged, matching the
source's `if let Some(validator) = ... get_mut(...)` no-op. -/
def updateValidator (vs : List Validator) (id : String)
    (f : Validator → Validator) : List Validator :=
  vs.map (fun v => if v.id = id then f v else v)

/-- Model of `HashMap::insert` for the validator registry: replaces any existing
entry with the same key. -/
def insertValidator (vs : List Validator) (v : Validator) : List Validator :=
  vs.filter (fun w => w.id ≠ v.id) ++ [v]

/-- Model of `HashMap::insert` for the token-holder registry. -/
def insertHolder (hs : List TokenHolder) (h : TokenHolder) : List TokenHolder :=
  hs.filter (fun w => w.id ≠ h.id) ++ [h]

/-- Model of `Blockchain::add_validator`: inserts with `delegated_stake = 0`,
`last_block_validated = 0`, `reputation = 1.0`. -/
def add_validator (bc : Blockchain) (id : String) (stake rotation_period : Nat) :
    Blockchain :=
  { bc with validators := (insertValidator bc.validators
      { id := id
        stake := stake
        delegated_stake := 0
        rotation_period := rotation_period
        last_block_validated := 0
        reputation := 10 }) }

/-- Model of `Blockchain::add_token_holder`. -/
def add_token_holder (bc : Blockchain) (id : String) (stake : Nat)
    (delegated_to : Option String) : Blockchain :=
  { bc with token_holders := (insertHolder bc.token_holders
      { id := id, stake := stake, delegated_to := delegated_to }) }

/-- Selection weight of the source's closure:
`(validator.stake + validator.delegated_stake) as f64 * validator.reputation`,
scaled by the fixed positive factor 10 of the tenths representation.
Note: there is no clamping of negative reputation. -/
def weight (v : Validator) : Int :=
  ((v.stake : Int) + (v.delegated_stake : Int)) * v.reputation

/-- Total weight over the registry, as accumulated by
`WeightedIndex::new`. -/
def totalWeight (vs : List Validator) : Int :=
  (vs.map weight).sum

/-- Success condition of `choose_weighted` (rand 0.8): the slice is
nonempty (`NoItem`), no weight is negative (`InvalidWeight`), and the
total weight is nonzero (`AllWeightsZero`). -/
def selectOk (vs : List Validator) : Bool :=
  !vs.isEmpty && vs.all (fun v => 0 ≤ weight v) && 0 < totalWeight vs

/-- Support of the weighted draw: validators of strictly positive weight
(zero-weight items carry no probability mass). -/
def eligible (vs : List Validator) : List Validator :=
  vs.filter (fun v => 0 < weight v)

/-- Model of `Blockchain::select_validator`: `choose_weighted` over
`validators.values()`, with `thread_rng` injected as a choice index `k`
picking among the positive-weight validators; `.ok()` turns the three
error cases into `none`. -/
def select_validator (k : Nat) (vs : List Validator) : Option Validator :=
  if selectOk vs then (eligible vs).get? (k % (eligible vs).length) else none

/-- Window scanned by `check_finality`:
`blocks.iter().rev().take(finality_threshold)`. -/
def finalityWindow (bc : Blockchain) : List Block :=
  bc.blocks.reverse.take bc.finality_threshold

/-- Occurrence count of a producing validator inside the finality window
(the `counter` entry for that id, 0 when absent). -/
def windowCount (bc : Blockchain) (id : String) : Nat :=
  ((finalityWindow bc).filter (fun b => b.validator_id = id)).length

/-- Model of `Blockchain::check_finality`: the set of validator ids for which the
source prints "Finality reached" — every id whose count in the window
strictly exceeds `finality_threshold / 2` (`u64` integer division).  The
source only prints and mutates nothing; we return the reported ids. -/
def check_finality (bc : Blockchain) : List String :=
  (((finalityWindow bc).map (fun b => b.validator_id)).dedup).filter
    (fun id => bc.finality_threshold / 2 < windowCount bc id)

/-- The reward applied by `validate_block` to the producing validator:
`stake += 10`, `last_block_validated := p`, `reputation += 0.1` (one
tenth). -/
def rewardAt (p : Nat) (w : Validator) : Validator :=
  { w with
    stake := w.stake + 10
    last_block_validated := p
    reputation := w.reputation + 1 }

/-- Model of `Blockchain::validate_block`: if the producer is registered, reward it
(+10 stake, `last_block_validated := current_period`, +0.1 reputation),
append the block, clear `pending_blocks`, and run the finality scan (which
mutates nothing).  If the producer is not registered, nothing happens.
There is no check of `previous_hash` anywhere. -/
def validate_block (bc : Blockchain) (block : Block) : Blockchain :=
  match findValidator bc.validators block.validator_id with
  | none => bc
  | some _ =>
      { bc with
        validators := updateValidator bc.validators block.validator_id
          (rewardAt bc.current_period)
        blocks := bc.blocks ++ [block]
        pending_blocks := [] }

/-- Model of `Blockchain::add_pending_block` (`HashSet::insert`). -/
def add_pending_block (bc : Blockchain) (block : Block) : Blockchain :=
  { bc with pending_blocks :=
      if block ∈ bc.pending_blocks then bc.pending_blocks
      else bc.pending_blocks ++ [block] }

/-- The inactivity condition of `rotate_validators` at period `p`:
`p - validator.last_block_validated >= validator.rotation_period`.  The
source subtraction is on `u64`; in every state the engine reaches,
`last_block_validated ≤ p`, where `Nat` truncated subtraction coincides
with it. -/
def rotDue (p : Nat) (v : Validator) : Bool :=
  v.rotation_period ≤ p - v.last_block_validated

/-- The penalty body of `rotate_validators`: `stake -= 1` (unchecked `u64`
subtraction, wrapping at zero) and `reputation -= 0.1` (one tenth; no
floor). -/
def penalize (v : Validator) : Validator :=
  { v with stake := u64SubOne v.stake, reputation := v.reputation - 1 }

/-- One validator's rotation step at (already incremented) period `p`. -/
def rotStep (p : Nat) (v : Validator) : Validator :=
  if rotDue p v then penalize v else v

/-- Model of `Blockchain::rotate_validators`: increments the period, then applies
the inactivity penalty to every validator meeting the condition. -/
def rotate_validators (bc : Blockchain) : Blockchain :=
  let p := bc.current_period + 1
  { bc with
    current_period := p
    validators := bc.validators.map (rotStep p) }

/-- The delegated-stake update loop at the top of
`Blockchain::run_hybrid_stake`: for every holder with a delegation target
that names a registered validator, `validator.delegated_stake +=
holder.stake`.  Note: the source never resets `delegated_stake` to 0
first, so the increment accumulates across rounds.  `delegStep` is the
per-holder body of that loop. -/
def delegStep (vs : List Validator) (h : TokenHolder) : List Validator :=
  match h.delegated_to with
  | none => vs
  | some d => updateValidator vs d
      (fun v => { v with delegated_stake := v.delegated_stake + h.stake })

/-- The loop over `token_holders.values()`. -/
def aggregate_delegations (bc : Blockchain) : Blockchain :=
  { bc with validators := bc.token_holders.foldl delegStep bc.validators }

/-- Model of `Blockchain::run_hybrid_stake`: aggregate delegations, select a
validator (choice index `k`), on success build a block at the tip (id =
chain length, injected timestamp `ts`) and validate it, then rotate.
Rotation and the period increment run whether or not selection
succeeded. -/
def run_hybrid_stake (k ts : Nat) (bc : Blockchain) : Blockchain :=
  let bc1 := aggregate_delegations bc
  let bc2 :=
    match select_validator k bc1.validators with
    | none => bc1
    | some sv =>
        let previous_hash :=
          match bc1.blocks.getLast? with
          | none => ""
          | some b => b.hash
        let block := Block.new bc1.blocks.length sampleData sv.id
          previous_hash ts
        validate_block bc1 block
  rotate_validators bc2

/-- Driver loop: run a round per entry of `rounds`, each entry supplying
that round's injected choice index and timestamp. -/
def run_rounds (bc : Blockchain) : List (Nat × Nat) → Blockchain
  | [] => bc
  | (k, ts) :: rest => run_rounds (run_hybrid_stake k ts bc) rest

/-! ## Verification-support definitions -/

/-- The `previous_hash` of the genesis block: the empty string. -/
def genesisPrev : String := ""

/-- Digest of the tip on top of a default `prev` for the empty chain —
exactly the `previous_hash` the round loop gives a new block. -/
def tipHash (prev : String) (bs : List Block) : String :=
  match bs.getLast? with
  | none => prev
  | some b => b.hash

/-- Hash linkage of a chain whose first block must point at `prev`: each
block's `previous_hash` equals its predecessor's `hash`. -/
def linkedFrom (prev : String) : List Block → Bool
  | [] => true
  | b :: rest => (b.previous_hash == prev) && linkedFrom b.hash rest

/-- Block ids count up from `n` along the list. -/
def idsFrom (n : Nat) : List Block → Bool
  | [] => true
  | b :: rest => (b.id == n) && idsFrom (n + 1) rest

/-- Modelled from the spec's words (for comparison with the source's
aggregation loop): the delegated-stake total the spec prescribes for a
validator — the sum of `holder.stake` over all token holders whose
delegation target equals that validator's id. -/
def specDelegatedSum (holders : List TokenHolder) (vid : String) : Nat :=
  ((holders.filter (fun h => h.delegated_to = some vid)).map
    (fun h => h.stake)).sum

/-! Concrete identities and states used by witnesses and
counterexamples. -/

def nameV1 : String := "V1"
def nameV2 : String := "V2"
def nameV3 : String := "V3"
def nameH1 : String := "H1"
def nameH2 : String := "H2"
def nameH3 : String := "H3"
def nameA : String := "A"
def nameB : String := "B"
def nameZ : String := "Z"
def dataD : String := "d"
def wrongPrev : String := "WRONG"

/-- The driver configuration of `main`: three validators with stakes
100/200/150 and rotation period 10, three holders delegating 50/80/70 to
them, finality threshold 5. -/
def bcMain : Blockchain :=
  add_token_holder
    (add_token_holder
      (add_token_holder
        (add_validator
          (add_validator (add_validator (Blockchain.new 5) nameV1 100 10)
            nameV2 200 10)
          nameV3 150 10)
        nameH1 50 (some nameV1))
      nameH2 80 (some nameV2))
    nameH3 70 (some nameV3)

/-- One validator, one holder delegating 50 to it. -/
def bcDeleg : Blockchain :=
  add_token_holder (add_validator (Blockchain.new 5) nameV1 100 10)
    nameH1 50 (some nameV1)

/-- A validator whose stake, reputation and rotation period are all zero
(stake 0 is reachable: the rotation penalty decrements stake every
inactive round; reputation 0 likewise after ten penalties). -/
def zVal : Validator :=
  { id := nameZ
    stake := 0
    delegated_stake := 0
    rotation_period := 0
    last_block_validated := 0
    reputation := 0 }

/-- A registry holding only `zVal`. -/
def bcZeroVal : Blockchain :=
  { Blockchain.new 5 with validators := [zVal] }

/-- A chain of one block with its producer registered. -/
def bcOneBlock : Blockchain :=
  { add_validator (Blockchain.new 5) nameV1 10 10 with
      blocks := [Block.new 0 dataD nameV1 genesisPrev 0] }

/-- A candidate block whose `previous_hash` does not match the tip of
`bcOneBlock`. -/
def blkWrongLink : Block :=
  Block.new 1 dataD nameV1 wrongPrev 5

/-- A validator with negative reputation (reachable through repeated
rotation penalties), hence negative selection weight. -/
def vNegRep : Validator :=
  { id := nameA
    stake := 10
    delegated_stake := 0
    rotation_period := 10
    last_block_validated := 0
    reputation := -10 }

/-- A validator with positive weight. -/
def vPosRep : Validator :=
  { id := nameB
    stake := 10
    delegated_stake := 0
    rotation_period := 10
    last_block_validated := 0
    reputation := 10 }

/-- A chain whose last four producers are A, A, B, A, with finality
threshold 4 (the spec's finality example). -/
def bcFinalityExample : Blockchain :=
  { Blockchain.new 4 with blocks :=
      [Block.new 0 dataD nameA genesisPrev 0,
       Block.new 1 dataD nameA dataD 1,
       Block.new 2 dataD nameB dataD 2,
       Block.new 3 dataD nameA dataD 3] }

/-- A single registered validator with rotation period 1: selected and
validating in the round, yet penalized by the same round's rotation. -/
def bcRotOne : Blockchain :=
  add_validator (Blockchain.new 5) nameV1 10 1

/-- A single registered validator with rotation period 10. -/
def bcRotTen : Blockchain :=
  add_validator (Blockchain.new 5) nameV1 10 10

/-- The registry entry of `bcRotTen`. -/
def vRotTen : Validator :=
  { id := nameV1
    stake := 10
    delegated_stake := 0
    rotation_period := 10
    last_block_validated := 0
    reputation := 10 }

/-- The first registry entry of `bcMain`. -/
def vMain1 : Validator :=
  { id := nameV1
    stake := 100
    delegated_stake := 0
    rotation_period := 10
    last_block_validated := 0
    reputation := 10 }

/-- A candidate block produced by the registered validator `V1` at the
tip of the empty `bcMain` chain. -/
def blkC6 : Block := Block.new 0 dataD nameV1 genesisPrev 3

/-! ## Helper lemmas -/

theorem findValidator_map (g : Validator → Validator)
    (hg : ∀ v, (g v).id = v.id) (vs : List Validator) (id : String) :
    findValidator (vs.map g) id = (findValidator vs id).map g := by
  induction vs with
  | nil => rfl
  | cons v vs ih =>
      by_cases h : v.id = id
      · simp [findValidator, List.find?_cons, hg, h]
      · simpa [findValidator, List.find?_cons, hg, h] using ih

theorem findValidator_updateValidator (vs : List Validator) (id : String)
    (f : Validator → Validator) (hf : ∀ v, (f v).id = v.id) :
    findValidator (updateValidator vs id f) id = (findValidator vs id).map f := by
  have hg : ∀ v, ((fun v => if v.id = id then f v else v) v).id = v.id := by
    intro v
    by_cases h : v.id = id <;> simp [h, hf]
  rw [updateValidator, findValidator_map _ hg]
  cases hfind : findValidator vs id with
  | none => rfl
  | some v =>
      have hidv : v.id = id := by
        have := List.find?_some hfind
        simpa using this
      simp [hidv]

theorem mem_updateValidator_of_ne (vs : List Validator) (id : String)
    (f : Validator → Validator) (w : Validator) (hw : w ∈ vs)
    (hne : w.id ≠ id) : w ∈ updateValidator vs id f := by
  have hfix : (fun v => if v.id = id then f v else v) w = w := by simp [hne]
  have := List.mem_map_of_mem (fun v => if v.id = id then f v else v) hw
  rw [hfix] at this
  exact this

theorem updateValidator_map_id (vs : List Validator) (id : String)
    (f : Validator → Validator) (hf : ∀ v, (f v).id = v.id) :
    (updateValidator vs id f).map (fun v => v.id) = vs.map (fun v => v.id) := by
  induction vs with
  | nil => rfl
  | cons v vs ih =>
      by_cases h : v.id = id <;>
        simp [updateValidator, h, hf] <;>
        simpa [updateValidator] using ih

theorem delegStep_map_id (vs : List Validator) (h : TokenHolder) :
    (delegStep vs h).map (fun v => v.id) = vs.map (fun v => v.id) := by
  unfold delegStep
  cases h.delegated_to with
  | none => rfl
  | some d => exact updateValidator_map_id vs d _ (fun v => rfl)

theorem foldl_delegStep_map_id (hs : List TokenHolder) (vs : List Validator) :
    ((hs.foldl delegStep vs).map (fun v => v.id)) = vs.map (fun v => v.id) := by
  induction hs generalizing vs with
  | nil => rfl
  | cons h hs ih => rw [List.foldl_cons, ih, delegStep_map_id]

theorem aggregate_validators_map_id (bc : Blockchain) :
    (aggregate_delegations bc).validators.map (fun v => v.id) =
      bc.validators.map (fun v => v.id) :=
  foldl_delegStep_map_id bc.token_holders bc.validators

theorem findValidator_of_mem_nodup (vs : List Validator) (v : Validator)
    (hmem : v ∈ vs) (hnodup : (vs.map (fun w => w.id)).Nodup) :
    findValidator vs v.id = some v := by
  induction vs with
  | nil => cases hmem
  | cons w vs ih =>
      rw [List.map_cons, List.nodup_cons] at hnodup
      rcases List.mem_cons.mp hmem with rfl | hv
      · simp [findValidator, List.find?_cons]
      · by_cases hw : w.id = v.id
        · exfalso
          exact hnodup.1 (hw ▸ List.mem_map_of_mem (fun x => x.id) hv)
        · simpa [findValidator, List.find?_cons, hw] using ih hv hnodup.2

theorem exists_pos_of_sum_pos (l : List Int) (h : 0 < l.sum) : ∃ x ∈ l, 0 < x := by
  induction l with
  | nil => simp at h
  | cons a l ih =>
      rcases lt_or_le 0 a with ha | ha
      · exact ⟨a, List.mem_cons_self a l, ha⟩
      · have hs : 0 < l.sum := by
          rw [List.sum_cons] at h
          linarith
        rcases ih hs with ⟨x, hx, hx0⟩
        exact ⟨x, List.mem_cons_of_mem _ hx, hx0⟩

theorem eligible_length_pos_of_selectOk (vs : List Validator)
    (h : selectOk vs = true) : 0 < (eligible vs).length := by
  have htotal : 0 < totalWeight vs := by
    have := h
    simp only [selectOk, Bool.and_eq_true, decide_eq_true_eq] at this
    exact this.2
  rcases exists_pos_of_sum_pos _ htotal with ⟨x, hx, hx0⟩
  rcases List.mem_map.mp hx with ⟨v, hv, rfl⟩
  have : v ∈ eligible vs := by
    rw [eligible, List.mem_filter]
    exact ⟨hv, by simpa using hx0⟩
  exact List.length_pos.mpr (List.ne_nil_of_mem this)

theorem select_validator_isSome (k : Nat) (vs : List Validator) :
    (select_validator k vs).isSome = selectOk vs := by
  unfold select_validator
  by_cases h : selectOk vs
  · have hlen := eligible_length_pos_of_selectOk vs h
    have hmod : k % (eligible vs).length < (eligible vs).length :=
      Nat.mod_lt _ hlen
    rw [if_pos h, List.get?_eq_get hmod]
    simp [h]
  · simp [h]

theorem select_validator_mem (k : Nat) (vs : List Validator) (v : Validator)
    (h : select_validator k vs = some v) : v ∈ vs ∧ 0 < weight v := by
  unfold select_validator at h
  by_cases hok : selectOk vs
  · rw [if_pos hok] at h
    have hv : v ∈ eligible vs := List.get?_mem h
    rw [eligible, List.mem_filter] at hv
    exact ⟨hv.1, by simpa using hv.2⟩
  · rw [if_neg hok] at h
    cases h

theorem tipHash_cons (p : String) (b : Block) (bs : List Block) :
    tipHash p (b :: bs) = tipHash b.hash bs := by
  cases bs with
  | nil => rfl
  | cons c cs =>
      cases hl : (c :: cs).getLast? with
      | none =>
          exact absurd hl (by simp)
      | some d => simp [tipHash, List.getLast?_cons_cons, hl]

theorem linkedFrom_append (p : String) (bs : List Block) (b : Block) :
    linkedFrom p (bs ++ [b]) =
      (linkedFrom p bs && (b.previous_hash == tipHash p bs)) := by
  induction bs generalizing p with
  | nil => simp [linkedFrom, tipHash]
  | cons c cs ih => simp [linkedFrom, ih, tipHash_cons, Bool.and_assoc]

theorem idsFrom_append (n : Nat) (bs : List Block) (b : Block) :
    idsFrom n (bs ++ [b]) = (idsFrom n bs && (b.id == n + bs.length)) := by
  induction bs generalizing n with
  | nil => simp [idsFrom]
  | cons c cs ih =>
      have hn : n + 1 + cs.length = n + (cs.length + 1) := by omega
      have h1 : idsFrom n ((c :: cs) ++ [b]) =
          (c.id == n && idsFrom (n + 1) (cs ++ [b])) := rfl
      have h2 : idsFrom n (c :: cs) = (c.id == n && idsFrom (n + 1) cs) := rfl
      rw [h1, h2, ih, List.length_cons, hn, Bool.and_assoc]

theorem linkedFrom_get (p : String) (bs : List Block)
    (h : linkedFrom p bs = true) :
    (∀ h0 : 0 < bs.length, (bs.get ⟨0, h0⟩).previous_hash = p) ∧
    ∀ i (hi : i + 1 < bs.length),
      (bs.get ⟨i + 1, hi⟩).previous_hash =
        (bs.get ⟨i, Nat.lt_of_succ_lt hi⟩).hash := by
  induction bs generalizing p with
  | nil =>
      exact ⟨fun h0 => absurd h0 (by simp), fun i hi => absurd hi (by simp)⟩
  | cons b bs ih =>
      simp only [linkedFrom, Bool.and_eq_true, beq_iff_eq] at h
      obtain ⟨hb, hrest⟩ := h
      refine ⟨fun h0 => hb, fun i hi => ?_⟩
      cases i with
      | zero =>
          have hlen : 0 < bs.length := by
            simpa using hi
          exact (ih b.hash hrest).1 hlen
      | succ j =>
          have hj : j + 1 < bs.length := by
            simpa using hi
          exact (ih b.hash hrest).2 j hj

theorem idsFrom_get (n : Nat) (bs : List Block) (h : idsFrom n bs = true) :
    ∀ i (hi : i < bs.length), (bs.get ⟨i, hi⟩).id = n + i := by
  induction bs generalizing n with
  | nil =>
      intro i hi
      simp at hi
  | cons b bs ih =>
      simp only [idsFrom, Bool.and_eq_true, beq_iff_eq] at h
      obtain ⟨hb, hrest⟩ := h
      intro i hi
      cases i with
      | zero => simpa using hb
      | succ j =>
          have hj : j < bs.length := by
            simpa using hi
          have hid := ih (n + 1) hrest j hj
          show (bs.get ⟨j, hj⟩).id = n + (j + 1)
          rw [hid]
          omega

/-- Unfolding of `run_hybrid_stake` through `tipHash`: the per-round lets
written out. -/
theorem run_hybrid_stake_def (k ts : Nat) (bc : Blockchain) :
    run_hybrid_stake k ts bc =
      rotate_validators
        (match select_validator k (aggregate_delegations bc).validators with
         | none => aggregate_delegations bc
         | some sv =>
             validate_block (aggregate_delegations bc)
               (Block.new bc.blocks.length sampleData sv.id
                 (tipHash genesisPrev bc.blocks) ts)) := rfl

/-- The chain is either kept or gets exactly the candidate block
appended, depending on producer registration. -/
theorem validate_block_blocks (bc : Blockchain) (block : Block) :
    (validate_block bc block).blocks = bc.blocks ∨
    (validate_block bc block).blocks = bc.blocks ++ [block] := by
  unfold validate_block
  cases findValidator bc.validators block.validator_id with
  | none => exact Or.inl rfl
  | some v => exact Or.inr rfl

/-- Every round either leaves the chain unchanged or appends exactly one
block, whose id is the old length and whose `previous_hash` is the old
tip's digest (the empty string on an empty chain). -/
theorem run_blocks_cases (k ts : Nat) (bc : Blockchain) :
    (run_hybrid_stake k ts bc).blocks = bc.blocks ∨
    ∃ vid : String,
      (run_hybrid_stake k ts bc).blocks =
        bc.blocks ++ [Block.new bc.blocks.length sampleData vid
          (tipHash genesisPrev bc.blocks) ts] := by
  rw [run_hybrid_stake_def]
  cases select_validator k (aggregate_delegations bc).validators with
  | none => exact Or.inl rfl
  | some sv =>
      rcases validate_block_blocks (aggregate_delegations bc)
          (Block.new bc.blocks.length sampleData sv.id
            (tipHash genesisPrev bc.blocks) ts) with hcase | hcase
      · exact Or.inl hcase
      · exact Or.inr ⟨sv.id, hcase⟩

theorem run_preserves_linkedFrom (k ts : Nat) (bc : Blockchain)
    (h : linkedFrom genesisPrev bc.blocks = true) :
    linkedFrom genesisPrev (run_hybrid_stake k ts bc).blocks = true := by
  rcases run_blocks_cases k ts bc with hcase | ⟨vid, hcase⟩
  · rw [hcase]
    exact h
  · rw [hcase, linkedFrom_append]
    simp [h, Block.new]

theorem run_preserves_idsFrom (k ts : Nat) (bc : Blockchain)
    (h : idsFrom 0 bc.blocks = true) :
    idsFrom 0 (run_hybrid_stake k ts bc).blocks = true := by
  rcases run_blocks_cases k ts bc with hcase | ⟨vid, hcase⟩
  · rw [hcase]
    exact h
  · rw [hcase, idsFrom_append]
    simp [h, Block.new]

theorem run_rounds_linkedFrom (bc : Blockchain) (rounds : List (Nat × Nat))
    (h : linkedFrom genesisPrev bc.blocks = true) :
    linkedFrom genesisPrev (run_rounds bc rounds).blocks = true := by
  induction rounds generalizing bc with
  | nil => exact h
  | cons r rest ih =>
      exact ih _ (run_preserves_linkedFrom r.1 r.2 bc h)

theorem run_rounds_idsFrom (bc : Blockchain) (rounds : List (Nat × Nat))
    (h : idsFrom 0 bc.blocks = true) :
    idsFrom 0 (run_rounds bc rounds).blocks = true := by
  induction rounds generalizing bc with
  | nil => exact h
  | cons r rest ih =>
      exact ih _ (run_preserves_idsFrom r.1 r.2 bc h)

theorem validate_block_period (bc : Blockchain) (block : Block) :
    (validate_block bc block).current_period = bc.current_period := by
  unfold validate_block
  cases findValidator bc.validators block.validator_id with
  | none => rfl
  | some v => rfl

theorem validate_block_success_eq (bc : Blockchain) (block : Block)
    (v : Validator)
    (hv : findValidator bc.validators block.validator_id = some v) :
    validate_block bc block =
      { bc with
        validators := updateValidator bc.validators block.validator_id
          (rewardAt bc.current_period)
        blocks := bc.blocks ++ [block]
        pending_blocks := [] } := by
  unfold validate_block
  rw [hv]

theorem rewardAt_id (p : Nat) (w : Validator) : (rewardAt p w).id = w.id := rfl

theorem rotStep_id (p : Nat) (v : Validator) : (rotStep p v).id = v.id := by
  rw [rotStep]
  split <;> rfl

/-! ## Claim theorems -/

/-- C1 (refuted by the code — the spec is the clear intent): the
aggregation loop never resets `delegated_stake` to 0, so it accumulates
across rounds instead of recomputing the per-round sum.  With one
validator and one holder delegating 50 to it, after two rounds the
validator's `delegated_stake` is 100, while the spec's sum over holders
(with delegations unchanged by the rounds) is 50. -/
theorem C1_delegation_accumulates :
    ((findValidator (run_rounds bcDeleg [(0, 0), (0, 1)]).validators
        nameV1).map (fun v => v.delegated_stake)) = some 100 ∧
    specDelegatedSum bcDeleg.token_holders nameV1 = 50 ∧
    (run_rounds bcDeleg [(0, 0), (0, 1)]).token_holders =
      bcDeleg.token_holders := by
  decide

/-- C2: in every state reachable by running rounds from a blockchain with
an empty chain, the chain is hash-linked: position 0 has empty
`previous_hash`, and every later block's `previous_hash` equals its
predecessor's `hash`. -/
theorem C2_chain_linked (init : Blockchain) (hinit : init.blocks = [])
    (rounds : List (Nat × Nat)) :
    (∀ h0 : 0 < (run_rounds init rounds).blocks.length,
        ((run_rounds init rounds).blocks.get ⟨0, h0⟩).previous_hash = "") ∧
    ∀ i (hi : i + 1 < (run_rounds init rounds).blocks.length),
      ((run_rounds init rounds).blocks.get ⟨i + 1, hi⟩).previous_hash =
        ((run_rounds init rounds).blocks.get
          ⟨i, Nat.lt_of_succ_lt hi⟩).hash := by
  have hstart : linkedFrom genesisPrev init.blocks = true := by
    rw [hinit]
    rfl
  exact linkedFrom_get genesisPrev _ (run_rounds_linkedFrom init rounds hstart)

/-- Witness for C2 at the driver configuration: after two rounds the
second block points at the first. -/
theorem C2_chain_linked_witness :
    bcMain.blocks = [] ∧
    ((run_rounds bcMain [(0, 0), (1, 1)]).blocks.get
        ⟨1, by decide⟩).previous_hash =
      ((run_rounds bcMain [(0, 0), (1, 1)]).blocks.get ⟨0, by decide⟩).hash :=
  ⟨rfl, (C2_chain_linked bcMain rfl [(0, 0), (1, 1)]).2 0 (by decide)⟩

/-- C3 (refuted by the code — the spec is the clear intent): the rotation
penalty uses unchecked `u64` subtraction and unfloored `f64` subtraction.
On a penalized validator whose stake is already 0 and reputation already
0, stake wraps to `2 ^ 64 - 1` (a release build; a debug build panics)
instead of saturating at 0, and reputation becomes `-1/10`, below the
claimed floor of 0. -/
theorem C3_penalty_not_saturating :
    (rotate_validators bcZeroVal).validators =
      [{ zVal with stake := 2 ^ 64 - 1, reputation := -1 }] ∧
    ((rotate_validators bcZeroVal).validators.all
      (fun v => 0 ≤ v.reputation)) = false := by
  decide

/-- C7: the finality scan counts producers over the last
`min(finalityThreshold, chain length)` blocks and reports exactly the
validators whose count strictly exceeds `finalityThreshold / 2` (integer
division); with threshold 0 it reports nothing; on the example chain with
threshold 4 and last four producers A, A, B, A it reports A (count 3 > 2)
and not B (count 1 ≤ 2). -/
theorem C7_finality_scan (bc : Blockchain) (id : String) :
    (id ∈ check_finality bc ↔
      bc.finality_threshold / 2 < windowCount bc id) ∧
    (finalityWindow bc).length = min bc.finality_threshold bc.blocks.length ∧
    (bc.finality_threshold = 0 → check_finality bc = []) ∧
    (nameA ∈ check_finality bcFinalityExample ∧
      nameB ∉ check_finality bcFinalityExample ∧
      windowCount bcFinalityExample nameA = 3 ∧
      windowCount bcFinalityExample nameB = 1) := by
  refine ⟨⟨?_, ?_⟩, ?_, ?_, by decide⟩
  · intro hmem
    have := (List.mem_filter.mp hmem).2
    simpa using this
  · intro hcount
    apply List.mem_filter.mpr
    refine ⟨?_, by simpa using hcount⟩
    have hpos : 0 < windowCount bc id := lt_of_le_of_lt (Nat.zero_le _) hcount
    rw [windowCount] at hpos
    rcases List.exists_mem_of_length_pos hpos with ⟨b, hb⟩
    have hb2 := List.mem_filter.mp hb
    apply List.mem_dedup.mpr
    exact List.mem_map.mpr ⟨b, hb2.1, by simpa using hb2.2⟩
  · rw [finalityWindow, List.length_take, List.length_reverse]
  · intro h0
    simp [check_finality, finalityWindow, h0]

/-- Witness for C7: with threshold 0 the scan reports nothing. -/
theorem C7_finality_scan_witness :
    check_finality (Blockchain.new 0) = [] :=
  (C7_finality_scan (Blockchain.new 0) nameA).2.2.1 rfl

/-- C10: in every state reachable by running rounds from a blockchain
with an empty chain, each block's id equals its position: `chain[i].id =
i` for every position `i`. -/
theorem C10_block_ids (init : Blockchain) (hinit : init.blocks = [])
    (rounds : List (Nat × Nat)) :
    ∀ i (hi : i < (run_rounds init rounds).blocks.length),
      ((run_rounds init rounds).blocks.get ⟨i, hi⟩).id = i := by
  have hstart : idsFrom 0 init.blocks = true := by
    rw [hinit]
    rfl
  intro i hi
  have := idsFrom_get 0 _ (run_rounds_idsFrom init rounds hstart) i hi
  simpa using this

/-- Witness for C10 at the driver configuration: the second block has
id 1. -/
theorem C10_block_ids_witness :
    bcMain.blocks = [] ∧
    ((run_rounds bcMain [(0, 0), (1, 1)]).blocks.get ⟨1, by decide⟩).id = 1 :=
  ⟨rfl, C10_block_ids bcMain rfl [(0, 0), (1, 1)] 1 (by decide)⟩

/-- C4 counterexample: `validate_block` performs no `previous_hash` check.
On a one-block chain with registered producer `V1`, a candidate block
whose `previous_hash` differs from the tip's digest is appended anyway —
the chain mutates, contradicting the claimed ChainLinkError-and-no-mutation
behaviour. -/
theorem C4_counterexample :
    blkWrongLink.previous_hash ≠ tipHash genesisPrev bcOneBlock.blocks ∧
    (validate_block bcOneBlock blkWrongLink).blocks =
      bcOneBlock.blocks ++ [blkWrongLink] := by
  decide

/-- C4 (amended): `validate_block` never inspects `previous_hash` and
reports no error.  Its only guard is producer registration: with an
unregistered producer the state is returned entirely unchanged; with a
registered producer the block is appended regardless of its
`previous_hash`. -/
theorem C4_validate_block_no_link_check (bc : Blockchain) (block : Block) :
    (findValidator bc.validators block.validator_id = none →
      validate_block bc block = bc) ∧
    ((findValidator bc.validators block.validator_id).isSome →
      (validate_block bc block).blocks = bc.blocks ++ [block]) := by
  constructor
  · intro h
    unfold validate_block
    rw [h]
  · intro h
    unfold validate_block
    cases hfind : findValidator bc.validators block.validator_id with
    | none =>
        rw [hfind] at h
        cases h
    | some v => rfl

/-- Witness for C4's amended theorem: an unregistered producer leaves the
state untouched. -/
theorem C4_validate_block_no_link_check_witness :
    validate_block (Blockchain.new 5) blkWrongLink = Blockchain.new 5 :=
  (C4_validate_block_no_link_check (Blockchain.new 5) blkWrongLink).1 rfl

/-- C6: when `validate_block` succeeds for a block whose producer is
registered, it performs exactly these mutations: the producer's stake
grows by 10, its `last_block_validated` becomes the current period, its
reputation grows by 0.1 (one tenth in the scaled model), the block is
appended at the end of the chain, and the pending set is cleared; the
period, holders, threshold and security ledger are untouched and every
other validator entry is kept. -/
theorem C6_validate_block_success (bc : Blockchain) (block : Block)
    (v : Validator)
    (hv : findValidator bc.validators block.validator_id = some v) :
    findValidator (validate_block bc block).validators block.validator_id =
      some { v with
        stake := v.stake + 10
        last_block_validated := bc.current_period
        reputation := v.reputation + 1 } ∧
    (validate_block bc block).blocks = bc.blocks ++ [block] ∧
    (validate_block bc block).pending_blocks = [] ∧
    (validate_block bc block).current_period = bc.current_period ∧
    (validate_block bc block).token_holders = bc.token_holders ∧
    (validate_block bc block).finality_threshold = bc.finality_threshold ∧
    (validate_block bc block).security_measures = bc.security_measures ∧
    ∀ w ∈ bc.validators, w.id ≠ block.validator_id →
      w ∈ (validate_block bc block).validators := by
  rw [validate_block_success_eq bc block v hv]
  refine ⟨?_, rfl, rfl, rfl, rfl, rfl, rfl, ?_⟩
  · rw [show ({ bc with
        validators := updateValidator bc.validators block.validator_id
          (rewardAt bc.current_period)
        blocks := bc.blocks ++ [block]
        pending_blocks := [] } : Blockchain).validators =
        updateValidator bc.validators block.validator_id
          (rewardAt bc.current_period) from rfl,
      findValidator_updateValidator bc.validators block.validator_id
        (rewardAt bc.current_period) (rewardAt_id bc.current_period), hv]
    rfl
  · intro w hw hne
    exact mem_updateValidator_of_ne _ _ _ w hw hne

/-- Witness for C6 at the driver configuration. -/
theorem C6_validate_block_success_witness :
    (validate_block bcMain blkC6).blocks = bcMain.blocks ++ [blkC6] ∧
    (validate_block bcMain blkC6).pending_blocks = [] := by
  have h := C6_validate_block_success bcMain blkC6 vMain1 (by decide)
  exact ⟨h.2.1, h.2.2.1⟩

set_option linter.unusedVariables false in
/-- C8: every round advances the period counter by exactly 1, and a round
whose selection fails still leaves the chain unchanged while the rotation
pass still penalizes every validator meeting the inactivity condition.
(The hypothesis `hlast` restricts to states where `last_block_validated`
does not exceed the period, which holds in every engine-reachable state
and makes the `Nat` model of the `u64` subtraction in the condition
exact.) -/
theorem C8_round_always_rotates (k ts : Nat) (bc : Blockchain)
    (hlast : ∀ v ∈ (aggregate_delegations bc).validators,
      v.last_block_validated ≤ bc.current_period) :
    (run_hybrid_stake k ts bc).current_period = bc.current_period + 1 ∧
    (select_validator k (aggregate_delegations bc).validators = none →
      (run_hybrid_stake k ts bc).blocks = bc.blocks ∧
      ∀ v ∈ (aggregate_delegations bc).validators,
        rotDue (bc.current_period + 1) v = true →
          penalize v ∈ (run_hybrid_stake k ts bc).validators) := by
  rw [run_hybrid_stake_def]
  cases hsel : select_validator k (aggregate_delegations bc).validators with
  | some sv =>
      constructor
      · have hp := validate_block_period (aggregate_delegations bc)
          (Block.new bc.blocks.length sampleData sv.id
            (tipHash genesisPrev bc.blocks) ts)
        show (validate_block (aggregate_delegations bc)
            (Block.new bc.blocks.length sampleData sv.id
              (tipHash genesisPrev bc.blocks) ts)).current_period + 1 =
          bc.current_period + 1
        rw [hp]
        rfl
      · intro hnone
        cases hnone
  | none =>
      refine ⟨rfl, fun _ => ⟨rfl, ?_⟩⟩
      intro v hv hdue
      have hmem := List.mem_map_of_mem
        (rotStep ((aggregate_delegations bc).current_period + 1)) hv
      have hstep : rotStep ((aggregate_delegations bc).current_period + 1) v =
          penalize v := by
        have : (aggregate_delegations bc).current_period = bc.current_period :=
          rfl
        rw [rotStep, this, hdue]
        rfl
      rw [hstep] at hmem
      exact hmem

/-- Witness for C8: on a registry holding only the zero-stake validator
`zVal`, selection fails (total weight 0), yet the period advances, the
chain stays empty, and `zVal` — which meets the inactivity condition —
is penalized. -/
theorem C8_round_always_rotates_witness :
    (run_hybrid_stake 0 0 bcZeroVal).current_period = 1 ∧
    (run_hybrid_stake 0 0 bcZeroVal).blocks = [] ∧
    penalize zVal ∈ (run_hybrid_stake 0 0 bcZeroVal).validators := by
  have h := C8_round_always_rotates 0 0 bcZeroVal (by decide)
  have h2 := h.2 (by decide)
  exact ⟨h.1, h2.1, h2.2 zVal (by decide) (by decide)⟩

/-- C5 counterexample: one validator with negative reputation (negative
weight) makes `choose_weighted` fail with `InvalidWeight`, so selection
returns nothing even though another validator has positive weight —
contradicting the claimed clamp-to-zero behaviour under which selection
would succeed. -/
theorem C5_counterexample :
    select_validator 0 [vNegRep, vPosRep] = none ∧
    0 < weight vPosRep ∧ weight vNegRep < 0 := by
  decide

/-- C5 (amended): the selection weight is
`(stake + delegatedStake) * reputation` with no clamping of negative
reputation; a successful draw returns a registered validator of strictly
positive weight, and selection fails exactly when the registry is empty,
some validator's weight is negative (`InvalidWeight` aborts the whole
draw), or the total weight is zero. -/
theorem C5_selection_failure_characterization (k : Nat)
    (vs : List Validator) :
    (select_validator k vs = none ↔
      vs = [] ∨ (∃ v ∈ vs, weight v < 0) ∨ totalWeight vs = 0) ∧
    ∀ v, select_validator k vs = some v → v ∈ vs ∧ 0 < weight v := by
  refine ⟨⟨?_, ?_⟩, fun v h => select_validator_mem k vs v h⟩
  · intro hnone
    have hok : selectOk vs = false := by
      have hs := select_validator_isSome k vs
      rw [hnone] at hs
      exact hs.symm
    by_cases hemp : vs = []
    · exact Or.inl hemp
    by_cases hneg : ∃ v ∈ vs, weight v < 0
    · exact Or.inr (Or.inl hneg)
    push_neg at hneg
    have hall : vs.all (fun v => decide (0 ≤ weight v)) = true := by
      rw [List.all_eq_true]
      intro v hv
      simpa using hneg v hv
    have hne : vs.isEmpty = false := by
      cases vs with
      | nil => exact absurd rfl hemp
      | cons a l => rfl
    rw [selectOk, hne, hall] at hok
    simp only [Bool.not_false, Bool.true_and, decide_eq_false_iff_not,
      not_lt] at hok
    have hge : 0 ≤ totalWeight vs := by
      apply List.sum_nonneg
      intro x hx
      rcases List.mem_map.mp hx with ⟨v, hv, rfl⟩
      exact hneg v hv
    exact Or.inr (Or.inr (le_antisymm hok hge))
  · intro hcond
    have hok : selectOk vs = false := by
      rcases hcond with rfl | ⟨v, hv, hneg⟩ | htot
      · rfl
      · have hall : vs.all (fun v => decide (0 ≤ weight v)) = false := by
          apply Bool.eq_false_iff.mpr
          intro hall
          have hle : 0 ≤ weight v := by
            simpa using List.all_eq_true.mp hall v hv
          exact absurd hneg (not_lt.mpr hle)
        rw [selectOk, hall]
        simp
      · rw [selectOk, htot]
        simp
    have hs := select_validator_isSome k vs
    rw [hok] at hs
    cases hcase : select_validator k vs with
    | none => rfl
    | some v =>
        rw [hcase] at hs
        cases hs

/-- Witness for C5's amended theorem: with a single positive-weight
validator, a successful draw returns it and its weight is positive. -/
theorem C5_selection_failure_characterization_witness :
    vPosRep ∈ [vPosRep] ∧ 0 < weight vPosRep :=
  (C5_selection_failure_characterization 0 [vPosRep]).2 vPosRep (by decide)

/-- C9 counterexample: `bcRotOne` holds one validator with rotation
period 1.  In a single round it is selected and validates the round's
only block (so its `last_block_validated` was just set to the current
period 0), yet the same round's rotation pass penalizes it: after the
round its stake is 19 = 10 + 10 - 1 and its reputation is back to 1.0
(10 + 1 - 1 in tenths), not the unpenalized 20 and 1.1 the claim
predicts for every rotation period. -/
theorem C9_counterexample :
    ((run_hybrid_stake 0 0 bcRotOne).blocks.map (fun b => b.validator_id)) =
      [nameV1] ∧
    findValidator (run_hybrid_stake 0 0 bcRotOne).validators nameV1 =
      some { id := nameV1
             stake := 19
             delegated_stake := 0
             rotation_period := 1
             last_block_validated := 0
             reputation := 10 } := by
  decide

/-- C9 (amended): a validator selected and validated in the current round
is exempt from that round's rotation penalty provided its rotation period
is at least 2: its end-of-round registry entry shows exactly the reward
and no penalty.  (For rotation periods 0 and 1 the penalty still fires,
because after the period increment `(p + 1) - p = 1` already meets the
condition; see the counterexample.) -/
theorem C9_no_penalty_when_validated (k ts : Nat) (bc : Blockchain)
    (v : Validator)
    (hnodup : (bc.validators.map (fun w => w.id)).Nodup)
    (hsel : select_validator k (aggregate_delegations bc).validators = some v)
    (hrot : 2 ≤ v.rotation_period) :
    findValidator (run_hybrid_stake k ts bc).validators v.id =
      some { v with
        stake := v.stake + 10
        last_block_validated := bc.current_period
        reputation := v.reputation + 1 } := by
  have hmem : v ∈ (aggregate_delegations bc).validators :=
    (select_validator_mem _ _ _ hsel).1
  have hnodup2 :
      ((aggregate_delegations bc).validators.map (fun w => w.id)).Nodup := by
    rw [aggregate_validators_map_id]
    exact hnodup
  have hfind : findValidator (aggregate_delegations bc).validators v.id =
      some v := findValidator_of_mem_nodup _ _ hmem hnodup2
  rw [run_hybrid_stake_def, hsel]
  show findValidator
      (rotate_validators (validate_block (aggregate_delegations bc)
        (Block.new bc.blocks.length sampleData v.id
          (tipHash genesisPrev bc.blocks) ts))).validators v.id = _
  rw [validate_block_success_eq (aggregate_delegations bc) _ v hfind]
  show findValidator
      ((updateValidator (aggregate_delegations bc).validators v.id
          (rewardAt bc.current_period)).map
        (rotStep (bc.current_period + 1))) v.id =
      some { v with
        stake := v.stake + 10
        last_block_validated := bc.current_period
        reputation := v.reputation + 1 }
  rw [findValidator_map (rotStep (bc.current_period + 1))
        (rotStep_id (bc.current_period + 1)),
      findValidator_updateValidator _ _ _ (rewardAt_id bc.current_period),
      hfind]
  show some (rotStep (bc.current_period + 1) (rewardAt bc.current_period v)) =
      some { v with
        stake := v.stake + 10
        last_block_validated := bc.current_period
        reputation := v.reputation + 1 }
  have hdue : rotDue (bc.current_period + 1) (rewardAt bc.current_period v) =
      false := by
    rw [rotDue]
    have hsub : bc.current_period + 1 -
        (rewardAt bc.current_period v).last_block_validated = 1 := by
      show bc.current_period + 1 - bc.current_period = 1
      omega
    rw [hsub]
    have hn : ¬ (rewardAt bc.current_period v).rotation_period ≤ 1 := by
      show ¬ v.rotation_period ≤ 1
      omega
    exact decide_eq_false hn
  rw [rotStep, hdue]
  rfl

/-- Witness for C9's amended theorem: with rotation period 10, the round's
producer ends the round with the reward and no penalty. -/
theorem C9_no_penalty_when_validated_witness :
    findValidator (run_hybrid_stake 0 0 bcRotTen).validators nameV1 =
      some { id := nameV1
             stake := 20
             delegated_stake := 0
             rotation_period := 10
             last_block_validated := 0
             reputation := 11 } :=
  C9_no_penalty_when_validated 0 0 bcRotTen vRotTen (by decide) (by decide)
    (by decide)

end HybridStake
